import Mathlib

/-!
Verification development for the cursor-based batching engine of
`scripts/batch_generator.py` (dnn-quant).

The engine is embedded shallowly: the pandas dataframe becomes an ordered
list of records (entity key, label value, feature vector, optional date);
the stateful cursor array becomes explicit state passing; the two loops
that may fail to terminate (the entity-alignment scan in `__init__` and
the probing loop in `_calc_num_batches`) are given explicit fuel and
return `Option`, with `none` modelling non-termination at that fuel.
-/

set_option autoImplicit false

namespace BatchGen

/-- One row of the data table: entity id (`key_name` column, modelled as a
natural number), label value (`target_name` column, an integer, conventionally
plus or minus 1), the feature columns after the label column, and the value of
the optional `date` column. -/
structure Record where
  key : Nat
  yval : Int
  feats : List Int
  date : Nat
deriving DecidableEq, Inhabited, Repr

/-- The loaded data table: its rows in order, and whether a `date` column is
present (`'date' in list(data.columns.values)` in the source). -/
structure DataSet where
  recs : List Record
  hasDate : Bool
deriving DecidableEq, Inhabited, Repr

/-- `len(data)` — the number of rows. -/
def DataSet.size (d : DataSet) : Nat := d.recs.length

/-- Row access `data.loc[i]`; in the source a cursor index is always in
range, so out-of-range access returns a default record. -/
def recAt (d : DataSet) (i : Nat) : Record := d.recs.getD i default

/-- `data.loc[i, key_name]` — the entity id at row `i`. -/
def keyAt (d : DataSet) (i : Nat) : Nat := (recAt d i).key

/-- `prev_idx = idx-1 if idx > 0 else self._data_size - 1` (line 193). -/
def prevIdx (d : DataSet) (i : Nat) : Nat := if 0 < i then i - 1 else d.size - 1

/-- The entity-boundary test of line 194:
`data.loc[prev_idx,key_name] != data.loc[idx,key_name]`. -/
abbrev isBoundary (d : DataSet) (i : Nat) : Prop :=
  keyAt d (prevIdx d i) ≠ keyAt d i

/-- Live per-slot state inside one `next_batch()` call: the slot's cursor
`self._cursor[b]` and its entry `seq_lengths[b]` of the mutable
sequence-length array. -/
structure SlotState where
  cur : Nat
  seqLen : Nat
deriving DecidableEq, Inhabited, Repr

/-- What the body of the `for b` loop in `_next_step` (lines 191-209)
produces for one slot: the feature row `x[b,:]`, the target row `y[b,:]`,
the appended attribute, and the updated slot state. -/
structure SlotOut where
  x : List Int
  y : List Rat
  attr : Option Nat
  s : SlotState
deriving DecidableEq, Inhabited, Repr

/-- The body of the `for b` loop of `BatchGenerator._next_step`
(lines 191-209), for one slot at unroll step `step`. -/
def slotStep (d : DataSet) (nI U : Nat) (step : Nat) (s : SlotState) : SlotOut :=
  let idx := s.cur
  if 0 < step ∧ isBoundary d idx then
    { x := List.replicate nI 0
      y := [0, 0]
      attr := none
      s := { cur := idx, seqLen := if s.seqLen = U then step else s.seqLen } }
  else
    let r := recAt d idx
    { x := r.feats
      y := [|(r.yval : Rat) - 1| / 2, |(r.yval : Rat) + 1| / 2]
      attr := if d.hasDate then some r.date else none
      s := { cur := (idx + 1) % d.size, seqLen := s.seqLen } }

/-- Running one slot through `count` consecutive unroll steps starting at
step index `step`: the slot's rows of `x`, `y` and `attr` over those steps,
and its final state. -/
structure SlotRun where
  xs : List (List Int)
  ys : List (List Rat)
  ats : List (Option Nat)
  s : SlotState
deriving DecidableEq, Inhabited, Repr

/-- Iterate `slotStep` for `count` steps starting at step index `step`. -/
def slotSteps (d : DataSet) (nI U : Nat) : Nat → Nat → SlotState → SlotRun
  | _, 0, s => ⟨[], [], [], s⟩
  | step, count + 1, s =>
    let o := slotStep d nI U step s
    let r := slotSteps d nI U (step + 1) count o.s
    ⟨o.x :: r.xs, o.y :: r.ys, o.attr :: r.ats, r.s⟩

/-- The `for b in range(self._batch_size)` loop of `_next_step`, over the
parallel lists of cursors and sequence lengths. -/
def stepSlots (d : DataSet) (nI U step : Nat) : List Nat → List Nat → List SlotOut
  | c :: cs, l :: ls => slotStep d nI U step ⟨c, l⟩ :: stepSlots d nI U step cs ls
  | _, _ => []

/-- Accumulated output of the `for i in range(self._num_unrollings)` loop of
`next_batch` (lines 222-226): the per-step frames of `x_batch`, `y_batch`
and `attribs`, and the final cursor and `seq_lengths` arrays. -/
structure BatchAcc where
  xs : List (List (List Int))
  ys : List (List (List Rat))
  ats : List (List (Option Nat))
  cursor : List Nat
  seqLens : List Nat
deriving DecidableEq, Inhabited, Repr

/-- The unroll loop of `next_batch`: `count` calls of `_next_step` starting
at step index `step`, threading the cursor and sequence-length arrays. -/
def stepLoop (d : DataSet) (nI U : Nat) : Nat → Nat → List Nat → List Nat → BatchAcc
  | _, 0, cur, sl => ⟨[], [], [], cur, sl⟩
  | step, count + 1, cur, sl =>
    let outs := stepSlots d nI U step cur sl
    let r := stepLoop d nI U (step + 1) count (outs.map (·.s.cur)) (outs.map (·.s.seqLen))
    ⟨(outs.map (·.x)) :: r.xs, (outs.map (·.y)) :: r.ys, (outs.map (·.attr)) :: r.ats,
      r.cursor, r.seqLens⟩

/-- The immutable data bundle returned by `next_batch` (class `Batch`). -/
structure Batch where
  inputs : List (List (List Int))
  targets : List (List (List Rat))
  seq_lengths : List Nat
  reset_flags : List Nat
  attribs : List (List (Option Nat))
deriving DecidableEq, Inhabited, Repr

/-- One slot's entry in `BatchGenerator._get_reset_flags` (lines 174-177):
0 when `idx == 0` or the entity id at `idx` differs from the one at `idx-1`,
else 1. -/
def resetFlag (d : DataSet) (idx : Nat) : Nat :=
  if idx = 0 ∨ keyAt d idx ≠ keyAt d (idx - 1) then 0 else 1

/-- `BatchGenerator.next_batch` (lines 212-227) as a pure function of the
cursor array: returns the `Batch` and the updated cursor array. -/
def nextBatch (d : DataSet) (nI U : Nat) (cursor : List Nat) : Batch × List Nat :=
  let acc := stepLoop d nI U 0 U cursor (List.replicate cursor.length U)
  (⟨acc.xs, acc.ys, acc.seqLens, cursor.map (resetFlag d), acc.ats⟩, acc.cursor)

/-- The engine's state: the loaded table, the geometry parameters, the two
cursor snapshots and the cached epoch estimate. -/
structure BatchGenerator where
  ds : DataSet
  num_inputs : Nat
  batch_size : Nat
  num_unrollings : Nat
  init_cursor : List Nat
  cursor : List Nat
  num_batches : Nat
deriving DecidableEq, Inhabited, Repr

/-- `BatchGenerator.rewind` (lines 232-233). -/
def rewind (g : BatchGenerator) : BatchGenerator := { g with cursor := g.init_cursor }

/-- `next_batch` acting on the engine state. -/
def nextBatchG (g : BatchGenerator) : Batch × BatchGenerator :=
  let p := nextBatch g.ds g.num_inputs g.num_unrollings g.cursor
  (p.1, { g with cursor := p.2 })

/-- The target boundary of `_calc_num_batches` (line 162):
`self._init_cursor[1] if self._batch_size > 1 else self._data_size - 1`,
as a Python integer. -/
def endIndex (g : BatchGenerator) : Int :=
  if 1 < g.batch_size then (g.init_cursor.getD 1 0 : Int) else (g.ds.size : Int) - 1

/-- The `while` loop of `_calc_num_batches` (lines 164-166), with explicit
fuel: returns the number of `next_batch()` calls made and the cursor array
at exit, or `none` when the fuel runs out (modelling non-termination). -/
def calcLoop (d : DataSet) (nI U : Nat) (eIdx : Int) : Nat → List Nat → Option (Nat × List Nat)
  | 0, cur =>
    if (cur.getD 0 0 : Int) < eIdx - (U : Int) then none else some (0, cur)
  | fuel + 1, cur =>
    if (cur.getD 0 0 : Int) < eIdx - (U : Int) then
      match calcLoop d nI U eIdx fuel (nextBatch d nI U cur).2 with
      | none => none
      | some (n, c) => some (n + 1, c)
    else some (0, cur)

/-- `BatchGenerator._calc_num_batches` (lines 152-168) acting on the engine
state: saves the cursor, rewinds, runs the probing loop, restores the
cursor, and returns the count. -/
def calcNumBatchesState (g : BatchGenerator) (fuel : Nat) : Option (Nat × BatchGenerator) :=
  match calcLoop g.ds g.num_inputs g.num_unrollings (endIndex g) fuel (rewind g).cursor with
  | none => none
  | some (n, _) => some (n, { rewind g with cursor := g.cursor })

/-- The `while data.loc[idx,key_name] == key` scan of lines 143-146, with
explicit fuel: advances `idx` cyclically until the entity id differs from
`k`; `none` models non-termination at this fuel. -/
def scanKey (d : DataSet) (k : Nat) : Nat → Nat → Option Nat
  | 0, _ => none
  | fuel + 1, idx =>
    if keyAt d idx = k then scanKey d k fuel ((idx + 1) % d.size) else some idx

/-- One iteration of the alignment loop of lines 140-148: scan from
`init_cursor[b]`, and keep the scanned index only when `b > 0`. -/
def alignOne (d : DataSet) (fuel b idx : Nat) : Option Nat :=
  match scanKey d (keyAt d idx) fuel idx with
  | none => none
  | some j => some (if 0 < b then j else idx)

/-- The full alignment loop over the initial cursor array, starting at
slot index `b`. -/
def alignAll (d : DataSet) (fuel : Nat) : Nat → List Nat → Option (List Nat)
  | _, [] => some []
  | b, i :: rest =>
    match alignOne d fuel b i with
    | none => none
    | some j =>
      match alignAll d fuel (b + 1) rest with
      | none => none
      | some js => some (j :: js)

/-- `BatchGenerator.__init__` (lines 117-150), given the already-parsed
table: resolves the label column (`list.index` raises when absent), runs
the two asserts of lines 124-127, resolves the entity-id column (the
`data.loc[idx, key_name]` access of line 142 raises when absent), divides
the size by `batch_size` (raising on zero), aligns the cursors, and runs
the epoch estimator. `none` models any raised exception or a loop that
does not terminate within `fuel`. -/
def construct (cols : List String) (keyN targetN : String) (d : DataSet)
    (nI B U fuel : Nat) : Option BatchGenerator :=
  match cols.indexOf? targetN with
  | none => none
  | some tIdx =>
    let fsi := tIdx + 1
    match cols.indexOf? targetN with
    | none => none
    | some yIdx =>
      if yIdx < fsi then
        if cols.contains keyN then
          if B = 0 then none
          else
            let segment := d.size / B
            let initC0 := (List.range B).map (fun b => b * segment)
            match alignAll d fuel 0 initC0 with
            | none => none
            | some initC =>
              let g0 : BatchGenerator := ⟨d, nI, B, U, initC, initC, 0⟩
              match calcNumBatchesState g0 fuel with
              | none => none
              | some (n, g1) => some { g1 with num_batches := n }
        else none
      else none

/-- An externally visible operation on a constructed engine. -/
inductive Op
  | nb
  | rw
deriving DecidableEq, Repr

/-- Apply one operation to the engine state. -/
def applyOp (g : BatchGenerator) : Op → BatchGenerator
  | .nb => (nextBatchG g).2
  | .rw => rewind g

/-- Apply a sequence of operations, left to right. -/
def applyOps (g : BatchGenerator) : List Op → BatchGenerator
  | [] => g
  | o :: os => applyOps (applyOp g o) os

/-- The sequence of batches produced by `n` consecutive `next_batch()`
calls from a given cursor array. -/
def batchSeq (d : DataSet) (nI U : Nat) : Nat → List Nat → List Batch
  | 0, _ => []
  | n + 1, cur =>
    let p := nextBatch d nI U cur
    p.1 :: batchSeq d nI U n p.2

/-- The header row of the worked example in the source docstring. -/
def colsEx : List String := ["ID", "YY", "X1", "X2"]

/-- The worked example dataset of the specification: entity A with three
rows (labels +1, -1, -1) followed by entity B with two rows (+1, -1). -/
def dEx : DataSet :=
  ⟨[⟨0, 1, [5, 3], 100⟩, ⟨0, -1, [2, 2], 101⟩, ⟨0, -1, [6, 5], 102⟩,
    ⟨1, 1, [1, 9], 103⟩, ⟨1, -1, [4, 4], 104⟩], true⟩

/-- The engine constructed over `dEx` with `batch_size = 2`,
`num_unrollings = 2`. -/
def gEx : BatchGenerator := (construct colsEx "ID" "YY" dEx 2 2 2 30).getD default

theorem stepSlots_eq_map_zip (d : DataSet) (nI U step : Nat) (cs ls : List Nat) :
    stepSlots d nI U step cs ls
      = (cs.zip ls).map (fun p => slotStep d nI U step ⟨p.1, p.2⟩) := by
  induction cs generalizing ls with
  | nil => simp [stepSlots]
  | cons c cs ih =>
    cases ls with
    | nil => simp [stepSlots]
    | cons l ls => simp [stepSlots, ih]

theorem stepLoop_state (d : DataSet) (nI U : Nat) (count : Nat) :
    ∀ (step : Nat) (cs ls : List Nat), cs.length = ls.length →
      (stepLoop d nI U step count cs ls).cursor
          = (cs.zip ls).map (fun p => (slotSteps d nI U step count ⟨p.1, p.2⟩).s.cur) ∧
      (stepLoop d nI U step count cs ls).seqLens
          = (cs.zip ls).map (fun p => (slotSteps d nI U step count ⟨p.1, p.2⟩).s.seqLen) := by
  induction count with
  | zero =>
    intro step cs ls hlen
    constructor
    · simp only [stepLoop, slotSteps]
      exact (List.map_fst_zip cs ls hlen.le).symm
    · simp only [stepLoop, slotSteps]
      exact (List.map_snd_zip cs ls hlen.ge).symm
  | succ count ih =>
    intro step cs ls hlen
    have hlen' : (stepSlots d nI U step cs ls).length
        = ((cs.zip ls).map (fun p => slotStep d nI U step ⟨p.1, p.2⟩)).length := by
      rw [stepSlots_eq_map_zip]
    obtain ⟨ihc, ihs⟩ := ih (step + 1)
      ((stepSlots d nI U step cs ls).map (·.s.cur))
      ((stepSlots d nI U step cs ls).map (·.s.seqLen))
      (by simp)
    constructor
    · show (stepLoop d nI U (step + 1) count _ _).cursor = _
      rw [ihc, stepSlots_eq_map_zip, List.zip_map', List.map_map, List.map_map]
      rfl
    · show (stepLoop d nI U (step + 1) count _ _).seqLens = _
      rw [ihs, stepSlots_eq_map_zip, List.zip_map', List.map_map, List.map_map]
      rfl

theorem stepLoop_frames (d : DataSet) (nI U : Nat) (count : Nat) :
    ∀ (step j : Nat) (cs ls : List Nat), cs.length = ls.length → j < count →
      (stepLoop d nI U step count cs ls).xs.get? j
          = some ((cs.zip ls).map
              (fun p => (slotSteps d nI U step count ⟨p.1, p.2⟩).xs.getD j [])) ∧
      (stepLoop d nI U step count cs ls).ys.get? j
          = some ((cs.zip ls).map
              (fun p => (slotSteps d nI U step count ⟨p.1, p.2⟩).ys.getD j [])) ∧
      (stepLoop d nI U step count cs ls).ats.get? j
          = some ((cs.zip ls).map
              (fun p => (slotSteps d nI U step count ⟨p.1, p.2⟩).ats.getD j none)) := by
  induction count with
  | zero => intro step j cs ls _ hj; exact absurd hj (Nat.not_lt_zero j)
  | succ count ih =>
    intro step j cs ls hlen hj
    cases j with
    | zero =>
      refine ⟨?_, ?_, ?_⟩ <;>
      · show some _ = some _
        rw [stepSlots_eq_map_zip, List.map_map]
        rfl
    | succ j =>
      obtain ⟨ihx, ihy, iha⟩ := ih (step + 1) j
        ((stepSlots d nI U step cs ls).map (·.s.cur))
        ((stepSlots d nI U step cs ls).map (·.s.seqLen))
        (by simp) (Nat.lt_of_succ_lt_succ hj)
      refine ⟨?_, ?_, ?_⟩
      · show (stepLoop d nI U (step + 1) count _ _).xs.get? j = _
        rw [ihx, stepSlots_eq_map_zip, List.zip_map', List.map_map, List.map_map]
        rfl
      · show (stepLoop d nI U (step + 1) count _ _).ys.get? j = _
        rw [ihy, stepSlots_eq_map_zip, List.zip_map', List.map_map, List.map_map]
        rfl
      · show (stepLoop d nI U (step + 1) count _ _).ats.get? j = _
        rw [iha, stepSlots_eq_map_zip, List.zip_map', List.map_map, List.map_map]
        rfl

theorem getD_zip {α β : Type} (cs : List α) (ls : List β) (b : Nat) (da : α) (db : β)
    (hb : b < cs.length) (hlen : cs.length = ls.length) :
    (cs.zip ls).getD b (da, db) = (cs.getD b da, ls.getD b db) := by
  induction cs generalizing ls b with
  | nil => exact absurd hb (by simp)
  | cons c cs ih =>
    cases ls with
    | nil => exact absurd hlen (by simp)
    | cons l ls =>
      cases b with
      | zero => simp [List.zip]
      | succ b =>
        simp only [List.zip_cons_cons, List.getD_cons_succ]
        exact ih ls b (Nat.lt_of_succ_lt_succ hb) (Nat.succ_injective hlen)

theorem getD_map_lt {α β : Type} (f : α → β) (l : List α) (b : Nat) (d1 : α) (d2 : β)
    (hb : b < l.length) : (l.map f).getD b d2 = f (l.getD b d1) := by
  rw [List.getD_eq_getElem _ _ (by simpa using hb), List.getD_eq_getElem _ _ hb,
    List.getElem_map]

theorem slotStep_cur_lt (d : DataSet) (nI U step : Nat) (s : SlotState)
    (hsz : 0 < d.size) (hc : s.cur < d.size) : (slotStep d nI U step s).s.cur < d.size := by
  by_cases h : 0 < step ∧ isBoundary d s.cur
  · simp only [slotStep, if_pos h]
    exact hc
  · simp only [slotStep, if_neg h]
    exact Nat.mod_lt _ hsz

theorem slotSteps_cur_lt (d : DataSet) (nI U : Nat) (count : Nat) :
    ∀ (step : Nat) (s : SlotState), 0 < d.size → s.cur < d.size →
      (slotSteps d nI U step count s).s.cur < d.size := by
  induction count with
  | zero => intro step s _ hc; exact hc
  | succ count ih =>
    intro step s hsz hc
    exact ih (step + 1) _ hsz (slotStep_cur_lt d nI U step s hsz hc)

theorem slotStep_seqLen_pos (d : DataSet) (nI U step : Nat) (s : SlotState)
    (h1 : 1 ≤ s.seqLen) : 1 ≤ (slotStep d nI U step s).s.seqLen := by
  by_cases h : 0 < step ∧ isBoundary d s.cur
  · simp only [slotStep, if_pos h]
    by_cases hu : s.seqLen = U
    · simpa [hu] using h.1
    · simpa [hu] using h1
  · simpa only [slotStep, if_neg h] using h1

theorem slotSteps_seqLen_pos (d : DataSet) (nI U : Nat) (count : Nat) :
    ∀ (step : Nat) (s : SlotState), 1 ≤ s.seqLen →
      1 ≤ (slotSteps d nI U step count s).s.seqLen := by
  induction count with
  | zero => intro step s h1; exact h1
  | succ count ih =>
    intro step s h1
    exact ih (step + 1) _ (slotStep_seqLen_pos d nI U step s h1)

theorem slotStep_zero_state (d : DataSet) (nI U : Nat) (s : SlotState) :
    (slotStep d nI U 0 s).s = ⟨(s.cur + 1) % d.size, s.seqLen⟩ := by
  simp [slotStep]

theorem slotSteps_advance (d : DataSet) (nI U : Nat) (count : Nat) :
    ∀ (step : Nat) (s : SlotState), 0 < d.size → s.cur < d.size →
      ∃ k, k ≤ count ∧ (slotSteps d nI U step count s).s.cur = (s.cur + k) % d.size := by
  induction count with
  | zero =>
    intro step s _ hc
    exact ⟨0, Nat.le_refl 0, (Nat.mod_eq_of_lt hc).symm⟩
  | succ count ih =>
    intro step s hsz hc
    by_cases h : 0 < step ∧ isBoundary d s.cur
    · have hstate : (slotStep d nI U step s).s.cur = s.cur := by
        simp only [slotStep, if_pos h]
      obtain ⟨k, hk, heq⟩ := ih (step + 1) (slotStep d nI U step s).s hsz (hstate ▸ hc)
      exact ⟨k, Nat.le_succ_of_le hk, by
        show (slotSteps d nI U (step + 1) count (slotStep d nI U step s).s).s.cur = _
        rw [heq, hstate]⟩
    · have hstate : (slotStep d nI U step s).s.cur = (s.cur + 1) % d.size := by
        simp only [slotStep, if_neg h]
      obtain ⟨k, hk, heq⟩ := ih (step + 1) (slotStep d nI U step s).s hsz
        (hstate ▸ Nat.mod_lt _ hsz)
      refine ⟨1 + k, by omega, ?_⟩
      show (slotSteps d nI U (step + 1) count (slotStep d nI U step s).s).s.cur = _
      rw [heq, hstate, Nat.mod_add_mod, Nat.add_assoc]

theorem slotRun_advance (d : DataSet) (nI U : Nat) (s : SlotState)
    (hsz : 0 < d.size) (hU : 1 ≤ U) :
    ∃ k, 1 ≤ k ∧ k ≤ U ∧ (slotSteps d nI U 0 U s).s.cur = (s.cur + k) % d.size := by
  obtain ⟨m, rfl⟩ : ∃ m, U = m + 1 := ⟨U - 1, by omega⟩
  have hstate := slotStep_zero_state d nI (m + 1) s
  obtain ⟨k, hk, heq⟩ := slotSteps_advance d nI (m + 1) m 1 (slotStep d nI (m + 1) 0 s).s hsz
    (by rw [hstate]; exact Nat.mod_lt _ hsz)
  refine ⟨1 + k, by omega, by omega, ?_⟩
  show (slotSteps d nI (m + 1) 1 m (slotStep d nI (m + 1) 0 s).s).s.cur = _
  rw [heq, hstate]
  show ((s.cur + 1) % d.size + k) % d.size = _
  rw [Nat.mod_add_mod, Nat.add_assoc]

theorem nextBatch_cursor_spec (d : DataSet) (nI U : Nat) (cursor : List Nat) :
    (nextBatch d nI U cursor).2
      = (cursor.zip (List.replicate cursor.length U)).map
          (fun p => (slotSteps d nI U 0 U ⟨p.1, p.2⟩).s.cur) :=
  (stepLoop_state d nI U U 0 cursor (List.replicate cursor.length U) (by simp)).1

theorem nextBatch_seqLens_spec (d : DataSet) (nI U : Nat) (cursor : List Nat) :
    (nextBatch d nI U cursor).1.seq_lengths
      = (cursor.zip (List.replicate cursor.length U)).map
          (fun p => (slotSteps d nI U 0 U ⟨p.1, p.2⟩).s.seqLen) :=
  (stepLoop_state d nI U U 0 cursor (List.replicate cursor.length U) (by simp)).2

theorem zip_replicate_getD (cursor : List Nat) (U b : Nat) (hb : b < cursor.length) :
    (cursor.zip (List.replicate cursor.length U)).getD b (0, U) = (cursor.getD b 0, U) := by
  rw [getD_zip cursor _ b 0 U hb (by simp)]
  congr 1
  rw [List.getD_eq_getElem _ _ (by simpa using hb)]
  simp

theorem nextBatch_cursor_getD (d : DataSet) (nI U : Nat) (cursor : List Nat) (b : Nat)
    (hb : b < cursor.length) :
    (nextBatch d nI U cursor).2.getD b 0
      = (slotSteps d nI U 0 U ⟨cursor.getD b 0, U⟩).s.cur := by
  rw [nextBatch_cursor_spec]
  have hzl : b < (cursor.zip (List.replicate cursor.length U)).length := by simp [hb]
  rw [getD_map_lt _ _ b (0, U) 0 hzl, zip_replicate_getD cursor U b hb]

theorem nextBatch_seqLens_getD (d : DataSet) (nI U : Nat) (cursor : List Nat) (b : Nat)
    (hb : b < cursor.length) :
    (nextBatch d nI U cursor).1.seq_lengths.getD b 0
      = (slotSteps d nI U 0 U ⟨cursor.getD b 0, U⟩).s.seqLen := by
  rw [nextBatch_seqLens_spec]
  have hzl : b < (cursor.zip (List.replicate cursor.length U)).length := by simp [hb]
  rw [getD_map_lt _ _ b (0, U) 0 hzl, zip_replicate_getD cursor U b hb]

theorem nextBatch_cells (d : DataSet) (nI U : Nat) (cursor : List Nat) (b j : Nat)
    (hb : b < cursor.length) (hj : j < U) :
    (((nextBatch d nI U cursor).1.inputs.getD j []).getD b []
        = (slotSteps d nI U 0 U ⟨cursor.getD b 0, U⟩).xs.getD j []) ∧
    (((nextBatch d nI U cursor).1.targets.getD j []).getD b []
        = (slotSteps d nI U 0 U ⟨cursor.getD b 0, U⟩).ys.getD j []) ∧
    (((nextBatch d nI U cursor).1.attribs.getD j []).getD b none
        = (slotSteps d nI U 0 U ⟨cursor.getD b 0, U⟩).ats.getD j none) := by
  obtain ⟨hx, hy, ha⟩ := stepLoop_frames d nI U U 0 j cursor
    (List.replicate cursor.length U) (by simp) hj
  have hzl : b < (cursor.zip (List.replicate cursor.length U)).length := by simp [hb]
  refine ⟨?_, ?_, ?_⟩
  · have hfx : (nextBatch d nI U cursor).1.inputs.getD j []
        = (cursor.zip (List.replicate cursor.length U)).map
            (fun p => (slotSteps d nI U 0 U ⟨p.1, p.2⟩).xs.getD j []) := by
      rw [show (nextBatch d nI U cursor).1.inputs
            = (stepLoop d nI U 0 U cursor (List.replicate cursor.length U)).xs from rfl,
        List.getD_eq_getD_get?, hx, Option.getD_some]
    rw [hfx, getD_map_lt _ _ b (0, U) [] hzl, zip_replicate_getD cursor U b hb]
  · have hfy : (nextBatch d nI U cursor).1.targets.getD j []
        = (cursor.zip (List.replicate cursor.length U)).map
            (fun p => (slotSteps d nI U 0 U ⟨p.1, p.2⟩).ys.getD j []) := by
      rw [show (nextBatch d nI U cursor).1.targets
            = (stepLoop d nI U 0 U cursor (List.replicate cursor.length U)).ys from rfl,
        List.getD_eq_getD_get?, hy, Option.getD_some]
    rw [hfy, getD_map_lt _ _ b (0, U) [] hzl, zip_replicate_getD cursor U b hb]
  · have hfa : (nextBatch d nI U cursor).1.attribs.getD j []
        = (cursor.zip (List.replicate cursor.length U)).map
            (fun p => (slotSteps d nI U 0 U ⟨p.1, p.2⟩).ats.getD j none) := by
      rw [show (nextBatch d nI U cursor).1.attribs
            = (stepLoop d nI U 0 U cursor (List.replicate cursor.length U)).ats from rfl,
        List.getD_eq_getD_get?, ha, Option.getD_some]
    rw [hfa, getD_map_lt _ _ b (0, U) none hzl, zip_replicate_getD cursor U b hb]

theorem indexOf?_eq_none_of_not_mem (cols : List String) (a : String) (h : a ∉ cols) :
    cols.indexOf? a = none :=
  List.indexOf?_eq_none_iff.mpr (fun _ hx hbeq => h (eq_of_beq hbeq ▸ hx))

/-- C2: construction fails with a configuration error whenever a named
column (entity-id or label) is absent from the table, or whenever the
block of feature columns (which starts right after the label column) would
overlap or precede the label column; the failure is synchronous: the
constructor returns no engine. -/
theorem claim_C2 (cols : List String) (keyN targetN : String) (d : DataSet)
    (nI B U fuel : Nat)
    (h : targetN ∉ cols ∨ keyN ∉ cols ∨
      ∃ li, cols.indexOf? targetN = some li ∧ li + 1 ≤ li) :
    construct cols keyN targetN d nI B U fuel = none := by
  rcases h with h | h | ⟨li, _, habs⟩
  · unfold construct
    rw [indexOf?_eq_none_of_not_mem cols targetN h]
  · have hk : cols.contains keyN = false := by simp [h]
    unfold construct
    cases htg : cols.indexOf? targetN with
    | none => rfl
    | some tIdx =>
      simp [hk]
      intro hmem
      exact absurd hmem h
  · exact absurd habs (by omega)

/-- C2 witness: with the entity-id column misnamed, construction over the
example dataset fails. -/
theorem claim_C2_witness :
    construct colsEx "NOPE" "YY" dEx 2 1 2 30 = none :=
  claim_C2 colsEx "NOPE" "YY" dEx 2 1 2 30 (Or.inr (Or.inl (by decide)))

/-- C6: in every `next_batch()` call the reset flag of slot `b` is exactly 0
iff, on the cursor positions before any stepping, the slot's index is 0 or
the entity id at `index-1` differs from the one at the index; it is exactly
1 otherwise. -/
theorem claim_C6 (d : DataSet) (nI U : Nat) (cursor : List Nat) (b : Nat)
    (hb : b < cursor.length) :
    ((nextBatch d nI U cursor).1.reset_flags.getD b 1 = 0 ↔
      (cursor.getD b 0 = 0 ∨ keyAt d (cursor.getD b 0 - 1) ≠ keyAt d (cursor.getD b 0))) ∧
    ((nextBatch d nI U cursor).1.reset_flags.getD b 1 = 1 ↔
      ¬(cursor.getD b 0 = 0 ∨ keyAt d (cursor.getD b 0 - 1) ≠ keyAt d (cursor.getD b 0))) := by
  have hrf : (nextBatch d nI U cursor).1.reset_flags = cursor.map (resetFlag d) := rfl
  rw [hrf, getD_map_lt (resetFlag d) cursor b 0 1 hb]
  unfold resetFlag
  by_cases hc : cursor.getD b 0 = 0 ∨ keyAt d (cursor.getD b 0) ≠ keyAt d (cursor.getD b 0 - 1)
  · rw [if_pos hc]
    have hc' : cursor.getD b 0 = 0 ∨ keyAt d (cursor.getD b 0 - 1) ≠ keyAt d (cursor.getD b 0) :=
      hc.imp id Ne.symm
    exact ⟨⟨fun _ => hc', fun _ => rfl⟩, ⟨fun h0 => absurd h0 (by decide), fun h0 => absurd hc' h0⟩⟩
  · rw [if_neg hc]
    have hc' : ¬(cursor.getD b 0 = 0 ∨ keyAt d (cursor.getD b 0 - 1) ≠ keyAt d (cursor.getD b 0)) :=
      fun h0 => hc (h0.imp id Ne.symm)
    exact ⟨⟨fun h0 => absurd h0 (by decide), fun h0 => absurd h0 hc'⟩, ⟨fun _ => hc', fun _ => rfl⟩⟩

/-- C6 witness: slot 0 sitting at index 3 of the example dataset (the first
row of entity B) gets reset flag 0. -/
theorem claim_C6_witness :
    ((nextBatch dEx 2 2 [3]).1.reset_flags.getD 0 1 = 0 ↔
      (([3] : List Nat).getD 0 0 = 0 ∨
        keyAt dEx (([3] : List Nat).getD 0 0 - 1) ≠ keyAt dEx (([3] : List Nat).getD 0 0))) ∧
    ((nextBatch dEx 2 2 [3]).1.reset_flags.getD 0 1 = 1 ↔
      ¬(([3] : List Nat).getD 0 0 = 0 ∨
        keyAt dEx (([3] : List Nat).getD 0 0 - 1) ≠ keyAt dEx (([3] : List Nat).getD 0 0))) :=
  claim_C6 dEx 2 2 [3] 0 (by decide)

/-- C7: every non-padded cell's target row is the two-class encoding of the
record's label value `v`: class-0 weight is the absolute value of `v - 1`
halved, class-1 weight the absolute value of `v + 1` halved, so +1 maps to
[0, 1] and -1 maps to [1, 0]. -/
theorem claim_C7 (d : DataSet) (nI U step : Nat) (s : SlotState)
    (h : ¬(0 < step ∧ isBoundary d s.cur)) :
    (slotStep d nI U step s).y =
      [|((recAt d s.cur).yval : Rat) - 1| / 2, |((recAt d s.cur).yval : Rat) + 1| / 2] ∧
    ((recAt d s.cur).yval = 1 → (slotStep d nI U step s).y = [0, 1]) ∧
    ((recAt d s.cur).yval = -1 → (slotStep d nI U step s).y = [1, 0]) := by
  have hy : (slotStep d nI U step s).y =
      [|((recAt d s.cur).yval : Rat) - 1| / 2, |((recAt d s.cur).yval : Rat) + 1| / 2] := by
    simp only [slotStep, if_neg h]
  refine ⟨hy, fun hv => ?_, fun hv => ?_⟩ <;> rw [hy, hv] <;> norm_num

/-- C7 witness: the record at index 3 of the example dataset has label +1
and its emitted target row at step 0 is [0, 1]. -/
theorem claim_C7_witness :
    (slotStep dEx 2 2 0 ⟨3, 2⟩).y =
      [|((recAt dEx 3).yval : Rat) - 1| / 2, |((recAt dEx 3).yval : Rat) + 1| / 2] ∧
    ((recAt dEx 3).yval = 1 → (slotStep dEx 2 2 0 ⟨3, 2⟩).y = [0, 1]) ∧
    ((recAt dEx 3).yval = -1 → (slotStep dEx 2 2 0 ⟨3, 2⟩).y = [1, 0]) :=
  claim_C7 dEx 2 2 0 ⟨3, 2⟩ (by simp)

theorem calc_state_restores (g : BatchGenerator) (fuel n : Nat) (g' : BatchGenerator)
    (h : calcNumBatchesState g fuel = some (n, g')) : g' = g := by
  unfold calcNumBatchesState at h
  cases hcl : calcLoop g.ds g.num_inputs g.num_unrollings (endIndex g) fuel (rewind g).cursor with
  | none => rw [hcl] at h; exact absurd h (by simp)
  | some p =>
    rw [hcl] at h
    obtain ⟨m, c⟩ := p
    simp only [Option.some.injEq, Prod.mk.injEq] at h
    obtain ⟨ds, nI0, B, U, ic, cu, nb⟩ := g
    exact h.2.symm

/-- C8: the epoch-size probe leaves the engine state unchanged: when
`_calc_num_batches` completes, the engine it leaves behind is exactly the
engine it started from (cursor restored to the value it had before the
probe, no other field touched). -/
theorem claim_C8 (g : BatchGenerator) (fuel n : Nat) (g' : BatchGenerator)
    (h : calcNumBatchesState g fuel = some (n, g')) : g' = g :=
  calc_state_restores g fuel n g' h

/-- C8 witness: probing the constructed example engine returns count 1 and
the engine unchanged. -/
theorem claim_C8_witness :
    calcNumBatchesState gEx 30 = some (1, gEx) ∧ gEx = gEx :=
  ⟨by decide, claim_C8 gEx 30 1 gEx (by decide)⟩

theorem slot_first_cell (d : DataSet) (nI U : Nat) (s : SlotState) (hU : 1 ≤ U) :
    (slotSteps d nI U 0 U s).xs.getD 0 [] = (recAt d s.cur).feats := by
  obtain ⟨m, rfl⟩ : ∃ m, U = m + 1 := ⟨U - 1, by omega⟩
  show ((slotStep d nI (m + 1) 0 s).x :: _).getD 0 [] = _
  simp [slotStep]

/-- C10: with `num_unrollings ≥ 1` every `next_batch()` call gives each slot
an effective sequence length of at least 1, emits slot `b`'s current record
at unroll step 0 (the entity-boundary padding branch cannot fire at step 0),
and advances each slot's cursor by at least one and at most `num_unrollings`
positions modulo the dataset size. -/
theorem claim_C10 (d : DataSet) (nI U : Nat) (cursor : List Nat) (b : Nat)
    (hsz : 0 < d.size) (hU : 1 ≤ U) (hb : b < cursor.length) :
    1 ≤ (nextBatch d nI U cursor).1.seq_lengths.getD b 0 ∧
    ((nextBatch d nI U cursor).1.inputs.getD 0 []).getD b []
      = (recAt d (cursor.getD b 0)).feats ∧
    ∃ k, 1 ≤ k ∧ k ≤ U ∧
      (nextBatch d nI U cursor).2.getD b 0 = (cursor.getD b 0 + k) % d.size := by
  refine ⟨?_, ?_, ?_⟩
  · rw [nextBatch_seqLens_getD d nI U cursor b hb]
    exact slotSteps_seqLen_pos d nI U U 0 ⟨cursor.getD b 0, U⟩ hU
  · rw [(nextBatch_cells d nI U cursor b 0 hb hU).1]
    exact slot_first_cell d nI U ⟨cursor.getD b 0, U⟩ hU
  · rw [nextBatch_cursor_getD d nI U cursor b hb]
    exact slotRun_advance d nI U ⟨cursor.getD b 0, U⟩ hsz hU

/-- C10 witness: one call on the example dataset from cursor `[2]`. -/
theorem claim_C10_witness :
    1 ≤ (nextBatch dEx 2 2 [2]).1.seq_lengths.getD 0 0 ∧
    ((nextBatch dEx 2 2 [2]).1.inputs.getD 0 []).getD 0 []
      = (recAt dEx (([2] : List Nat).getD 0 0)).feats ∧
    ∃ k, 1 ≤ k ∧ k ≤ 2 ∧
      (nextBatch dEx 2 2 [2]).2.getD 0 0 = (([2] : List Nat).getD 0 0 + k) % dEx.size :=
  claim_C10 dEx 2 2 [2] 0 (by decide) (by decide) (by decide)

theorem scanKey_some_ne (d : DataSet) (k : Nat) :
    ∀ (fuel i j : Nat), scanKey d k fuel i = some j → keyAt d j ≠ k := by
  intro fuel
  induction fuel with
  | zero => intro i j h; exact absurd h (by simp [scanKey])
  | succ fuel ih =>
    intro i j h
    simp only [scanKey] at h
    split_ifs at h with hk
    · exact ih _ j h
    · cases h; exact hk

theorem scanKey_bound (d : DataSet) (k : Nat) :
    ∀ (fuel i j : Nat), 0 < d.size → i < d.size → scanKey d k fuel i = some j →
      j < d.size := by
  intro fuel
  induction fuel with
  | zero => intro i j _ _ h; exact absurd h (by simp [scanKey])
  | succ fuel ih =>
    intro i j hsz hi h
    simp only [scanKey] at h
    split_ifs at h with hk
    · exact ih _ j hsz (Nat.mod_lt _ hsz) h
    · cases h; exact hi

theorem alignOne_lt (d : DataSet) (fuel b idx j : Nat) (hidx : idx < d.size)
    (h : alignOne d fuel b idx = some j) : j < d.size := by
  unfold alignOne at h
  cases hs : scanKey d (keyAt d idx) fuel idx with
  | none => rw [hs] at h; exact absurd h (by simp)
  | some j0 =>
    rw [hs] at h
    simp only [Option.some.injEq] at h
    subst h
    by_cases hb : 0 < b
    · simp only [if_pos hb]
      have hpos : 0 < d.size := Nat.lt_of_le_of_lt (Nat.zero_le idx) hidx
      cases fuel with
      | zero => exact absurd hs (by simp [scanKey])
      | succ f =>
        simp only [scanKey, if_pos rfl] at hs
        exact scanKey_bound d (keyAt d idx) f _ j0 hpos (Nat.mod_lt _ hpos) hs
    · simp only [if_neg hb]
      exact hidx

theorem alignOne_pos_size (d : DataSet) (fuel b idx j : Nat)
    (h : alignOne d fuel b idx = some j) : 0 < d.size := by
  unfold alignOne at h
  cases hs : scanKey d (keyAt d idx) fuel idx with
  | none => rw [hs] at h; exact absurd h (by simp)
  | some j0 =>
    have hne := scanKey_some_ne d (keyAt d idx) fuel idx j0 hs
    by_contra hsz
    obtain ⟨recs, hd⟩ := d
    have : recs = [] := by
      have := Nat.eq_zero_of_not_pos hsz
      simpa [DataSet.size] using this
    subst this
    exact hne rfl

theorem alignAll_props (d : DataSet) (fuel : Nat) :
    ∀ (init : List Nat), ∀ (out : List Nat) (b : Nat),
      alignAll d fuel b init = some out → (∀ i ∈ init, i < d.size) →
      (∀ j ∈ out, j < d.size) ∧ out.length = init.length := by
  intro init
  induction init with
  | nil =>
    intro out b h _
    simp only [alignAll, Option.some.injEq] at h
    subst h
    simp
  | cons i rest ih =>
    intro out b h hin
    simp only [alignAll] at h
    cases h1 : alignOne d fuel b i with
    | none => rw [h1] at h; exact absurd h (by simp)
    | some j =>
      rw [h1] at h
      cases h2 : alignAll d fuel (b + 1) rest with
      | none => rw [h2] at h; exact absurd h (by simp)
      | some js =>
        rw [h2] at h
        simp only [Option.some.injEq] at h
        subst h
        have hj := alignOne_lt d fuel b i j (hin i (by simp)) h1
        obtain ⟨hjs, hlen⟩ := ih js (b + 1) h2 (fun x hx => hin x (by simp [hx]))
        refine ⟨?_, by simp [hlen]⟩
        intro x hx
        rcases List.mem_cons.mp hx with rfl | hx
        · exact hj
        · exact hjs x hx

theorem alignAll_head (d : DataSet) (fuel : Nat) (i : Nat) (rest out : List Nat)
    (h : alignAll d fuel 0 (i :: rest) = some out) : out.getD 0 0 = i := by
  simp only [alignAll] at h
  cases h1 : alignOne d fuel 0 i with
  | none => rw [h1] at h; exact absurd h (by simp)
  | some j =>
    rw [h1] at h
    have hj : j = i := by
      unfold alignOne at h1
      cases hs : scanKey d (keyAt d i) fuel i with
      | none => rw [hs] at h1; exact absurd h1 (by simp)
      | some j0 => rw [hs] at h1; simpa using h1.symm
    cases h2 : alignAll d fuel 1 rest with
    | none => rw [h2] at h; exact absurd h (by simp)
    | some js =>
      rw [h2] at h
      simp only [Option.some.injEq] at h
      subst h
      simpa using hj

theorem init_entry_lt (n B b : Nat) (hn : 0 < n) (hb : b < B) : b * (n / B) < n := by
  obtain ⟨m, rfl⟩ : ∃ m, B = m + 1 := ⟨B - 1, by omega⟩
  rcases Nat.eq_zero_or_pos (n / (m + 1)) with hs | hs
  · simpa [hs] using hn
  · calc b * (n / (m + 1)) ≤ m * (n / (m + 1)) := Nat.mul_le_mul_right _ (by omega)
    _ < m * (n / (m + 1)) + (n / (m + 1)) := Nat.lt_add_of_pos_right hs
    _ = n / (m + 1) * (m + 1) := by ring
    _ ≤ n := Nat.div_mul_le_self n (m + 1)

theorem construct_props (cols : List String) (keyN targetN : String) (d : DataSet)
    (nI B U fuel : Nat) (g : BatchGenerator)
    (h : construct cols keyN targetN d nI B U fuel = some g) :
    g.ds = d ∧ g.num_inputs = nI ∧ g.batch_size = B ∧ g.num_unrollings = U ∧
    g.cursor = g.init_cursor ∧ 0 < B ∧ 0 < d.size ∧
    g.init_cursor.length = B ∧ g.init_cursor.getD 0 0 = 0 ∧
    (∀ x ∈ g.init_cursor, x < d.size) ∧
    (∃ c, calcLoop d nI U (endIndex g) fuel g.init_cursor = some (g.num_batches, c)) := by
  unfold construct at h
  cases htg : cols.indexOf? targetN with
  | none => rw [htg] at h; exact absurd h (by simp)
  | some tIdx =>
    rw [htg] at h
    dsimp only at h
    rw [if_pos (Nat.lt_succ_self tIdx)] at h
    by_cases hk : cols.contains keyN
    case neg => rw [if_neg hk] at h; exact absurd h (by simp)
    rw [if_pos hk] at h
    by_cases hB0 : B = 0
    case pos => rw [if_pos hB0] at h; exact absurd h (by simp)
    rw [if_neg hB0] at h
    cases halign : alignAll d fuel 0 ((List.range B).map fun b => b * (d.size / B)) with
    | none => rw [halign] at h; exact absurd h (by simp)
    | some initC =>
      rw [halign] at h
      dsimp only at h
      cases hcalc : calcNumBatchesState ⟨d, nI, B, U, initC, initC, 0⟩ fuel with
      | none => rw [hcalc] at h; exact absurd h (by simp)
      | some p =>
        rw [hcalc] at h
        dsimp only at h
        obtain ⟨n, g1⟩ := p
        have hg1 : g1 = ⟨d, nI, B, U, initC, initC, 0⟩ :=
          calc_state_restores _ fuel n g1 hcalc
        subst hg1
        simp only [Option.some.injEq] at h
        subst h
        have hB : 0 < B := Nat.pos_of_ne_zero hB0
        obtain ⟨m, hBm⟩ : ∃ m, B = m + 1 := ⟨B - 1, by omega⟩
        have hsz : 0 < d.size := by
          subst hBm
          rw [List.range_succ_eq_map, List.map_cons] at halign
          simp only [alignAll] at halign
          cases h4 : alignOne d fuel 0 (0 * (d.size / (m + 1))) with
          | none => rw [h4] at halign; exact absurd halign (by simp)
          | some j => exact alignOne_pos_size d fuel 0 _ j h4
        have hbounds := alignAll_props d fuel _ initC 0 halign (by
          intro x hx
          obtain ⟨bb, hbb, rfl⟩ := List.mem_map.mp hx
          exact init_entry_lt d.size B bb hsz (List.mem_range.mp hbb))
        have hhead : initC.getD 0 0 = 0 := by
          subst hBm
          rw [List.range_succ_eq_map, List.map_cons] at halign
          have := alignAll_head d fuel _ _ initC halign
          simpa using this
        have hloop : ∃ c,
            calcLoop d nI U (endIndex ⟨d, nI, B, U, initC, initC, 0⟩) fuel initC
              = some (n, c) := by
          unfold calcNumBatchesState at hcalc
          dsimp only [rewind] at hcalc
          cases hl : calcLoop d nI U (endIndex ⟨d, nI, B, U, initC, initC, 0⟩) fuel initC with
          | none => rw [hl] at hcalc; exact absurd hcalc (by simp)
          | some q =>
            rw [hl] at hcalc
            obtain ⟨n2, c2⟩ := q
            simp only [Option.some.injEq, Prod.mk.injEq] at hcalc
            exact ⟨c2, by rw [hcalc.1]⟩
        obtain ⟨c, hc⟩ := hloop
        exact ⟨rfl, rfl, rfl, rfl, rfl, hB, hsz, by simpa using hbounds.2, hhead, hbounds.1,
          c, hc⟩

theorem applyOp_fields (g : BatchGenerator) (o : Op) :
    (applyOp g o).ds = g.ds ∧ (applyOp g o).num_inputs = g.num_inputs ∧
    (applyOp g o).batch_size = g.batch_size ∧
    (applyOp g o).num_unrollings = g.num_unrollings ∧
    (applyOp g o).init_cursor = g.init_cursor ∧
    (applyOp g o).num_batches = g.num_batches := by
  cases o <;> exact ⟨rfl, rfl, rfl, rfl, rfl, rfl⟩

theorem nextBatch_cursor_mem (d : DataSet) (nI U : Nat) (cursor : List Nat)
    (hsz : 0 < d.size) (hc : ∀ x ∈ cursor, x < d.size) :
    ∀ x ∈ (nextBatch d nI U cursor).2, x < d.size := by
  rw [nextBatch_cursor_spec]
  intro x hx
  obtain ⟨p, hp, rfl⟩ := List.mem_map.mp hx
  obtain ⟨c, l⟩ := p
  have hp1 : c ∈ cursor := (List.of_mem_zip hp).1
  exact slotSteps_cur_lt d nI U U 0 ⟨c, l⟩ hsz (hc c hp1)

theorem applyOps_inv (ops : List Op) :
    ∀ (g : BatchGenerator), 0 < g.ds.size →
      (∀ x ∈ g.cursor, x < g.ds.size) → (∀ x ∈ g.init_cursor, x < g.ds.size) →
      (∀ x ∈ (applyOps g ops).cursor, x < g.ds.size) ∧
      (∀ x ∈ (applyOps g ops).init_cursor, x < g.ds.size) := by
  induction ops with
  | nil => intro g _ h1 h2; exact ⟨h1, h2⟩
  | cons o os ih =>
    intro g hsz h1 h2
    have hds : (applyOp g o).ds = g.ds := (applyOp_fields g o).1
    have hic : (applyOp g o).init_cursor = g.init_cursor := (applyOp_fields g o).2.2.2.2.1
    have h1' : ∀ x ∈ (applyOp g o).cursor, x < (applyOp g o).ds.size := by
      rw [hds]
      cases o with
      | nb => exact nextBatch_cursor_mem g.ds g.num_inputs g.num_unrollings g.cursor hsz h1
      | rw => exact h2
    have h2' : ∀ x ∈ (applyOp g o).init_cursor, x < (applyOp g o).ds.size := by
      rw [hds, hic]; exact h2
    have hmain := ih (applyOp g o) (by rw [hds]; exact hsz) h1' h2'
    rw [hds] at hmain
    exact hmain

/-- C4: for every successfully constructed engine, every live cursor index
lies in [0, size) after construction and after any finite sequence of
`next_batch()` and `rewind()` calls; each advancement is taken modulo the
dataset size (see the modulo update in `slotStep`). -/
theorem claim_C4 (cols : List String) (keyN targetN : String) (d : DataSet)
    (nI B U fuel : Nat) (g : BatchGenerator)
    (h : construct cols keyN targetN d nI B U fuel = some g) (ops : List Op) :
    ∀ x ∈ (applyOps g ops).cursor, x < d.size := by
  obtain ⟨hds, _, _, _, hcur, _, hsz, _, _, hin, _⟩ :=
    construct_props cols keyN targetN d nI B U fuel g h
  have hsz' : 0 < g.ds.size := by rw [hds]; exact hsz
  have h2 : ∀ x ∈ g.init_cursor, x < g.ds.size := by rw [hds]; exact hin
  have h1 : ∀ x ∈ g.cursor, x < g.ds.size := by rw [hcur]; exact h2
  have := (applyOps_inv ops g hsz' h1 h2).1
  rw [hds] at this
  exact this

/-- C4 witness: cursors of the example engine stay below the dataset size
through a concrete sequence of calls. -/
theorem claim_C4_witness :
    (applyOps gEx [Op.nb, Op.nb, Op.rw, Op.nb]).cursor.getD 0 0 < dEx.size :=
  claim_C4 colsEx "ID" "YY" dEx 2 2 2 30 gEx (by decide) [Op.nb, Op.nb, Op.rw, Op.nb]
    _ (by decide)

theorem applyOps_fields (ops : List Op) :
    ∀ (g : BatchGenerator), (applyOps g ops).ds = g.ds ∧
      (applyOps g ops).num_inputs = g.num_inputs ∧
      (applyOps g ops).num_unrollings = g.num_unrollings ∧
      (applyOps g ops).init_cursor = g.init_cursor := by
  induction ops with
  | nil => intro g; exact ⟨rfl, rfl, rfl, rfl⟩
  | cons o os ih =>
    intro g
    obtain ⟨i1, i2, i3, i4⟩ := ih (applyOp g o)
    obtain ⟨f1, _, _, _, f5, _⟩ := applyOp_fields g o
    exact ⟨i1.trans f1, i2.trans (by cases o <;> rfl), i3.trans (by cases o <;> rfl),
      i4.trans f5⟩

/-- C5: the engine after construction has its live cursor at `init_cursor`,
so for every sequence of operations applied to a constructed engine,
rewinding and then producing N batches yields exactly the batch sequence of
the first N `next_batch()` calls made right after construction. -/
theorem claim_C5 (cols : List String) (keyN targetN : String) (d : DataSet)
    (nI B U fuel : Nat) (g : BatchGenerator)
    (h : construct cols keyN targetN d nI B U fuel = some g) (ops : List Op) (N : Nat) :
    batchSeq (rewind (applyOps g ops)).ds (rewind (applyOps g ops)).num_inputs
        (rewind (applyOps g ops)).num_unrollings N (rewind (applyOps g ops)).cursor
      = batchSeq g.ds g.num_inputs g.num_unrollings N g.cursor := by
  obtain ⟨_, _, _, _, hcur, _, _, _, _, _, _⟩ :=
    construct_props cols keyN targetN d nI B U fuel g h
  obtain ⟨f1, f2, f3, f4⟩ := applyOps_fields ops g
  have hrc : (rewind (applyOps g ops)).cursor = g.cursor := by
    show (applyOps g ops).init_cursor = g.cursor
    rw [f4, hcur]
  have hrd : (rewind (applyOps g ops)).ds = g.ds := f1
  have hrn : (rewind (applyOps g ops)).num_inputs = g.num_inputs := f2
  have hru : (rewind (applyOps g ops)).num_unrollings = g.num_unrollings := f3
  rw [hrc, hrd, hrn, hru]

/-- C5 witness: rewinding the example engine after two batch calls
reproduces the first two batches after construction. -/
theorem claim_C5_witness :
    batchSeq (rewind (applyOps gEx [Op.nb, Op.nb])).ds
        (rewind (applyOps gEx [Op.nb, Op.nb])).num_inputs
        (rewind (applyOps gEx [Op.nb, Op.nb])).num_unrollings 2
        (rewind (applyOps gEx [Op.nb, Op.nb])).cursor
      = batchSeq gEx.ds gEx.num_inputs gEx.num_unrollings 2 gEx.cursor :=
  claim_C5 colsEx "ID" "YY" dEx 2 2 2 30 gEx (by decide) [Op.nb, Op.nb] 2

theorem nextBatch_unroll_zero (d : DataSet) (nI : Nat) (cursor : List Nat) :
    (nextBatch d nI 0 cursor).2 = cursor := rfl

theorem calcLoop_stuck (d : DataSet) (nI : Nat) (eIdx : Int) (he : 0 < eIdx) :
    ∀ (fuel : Nat) (cur : List Nat), cur.getD 0 0 = 0 →
      calcLoop d nI 0 eIdx fuel cur = none := by
  intro fuel
  induction fuel with
  | zero =>
    intro cur h0
    have hcond : ((cur.getD 0 0 : Nat) : Int) < eIdx - ((0 : Nat) : Int) := by
      rw [h0]; simpa using he
    simp only [calcLoop, if_pos hcond]
  | succ fuel ih =>
    intro cur h0
    have hcond : ((cur.getD 0 0 : Nat) : Int) < eIdx - ((0 : Nat) : Int) := by
      rw [h0]; simpa using he
    simp only [calcLoop, if_pos hcond, nextBatch_unroll_zero, ih cur h0]

theorem alignAll_singleton (d : DataSet) (fuel i : Nat) (out : List Nat)
    (h : alignAll d fuel 0 [i] = some out) : out = [i] := by
  simp only [alignAll] at h
  cases h1 : alignOne d fuel 0 i with
  | none => rw [h1] at h; exact absurd h (by simp)
  | some j =>
    rw [h1] at h
    simp only [Option.some.injEq] at h
    subst h
    unfold alignOne at h1
    cases hs : scanKey d (keyAt d i) fuel i with
    | none => rw [hs] at h1; exact absurd h1 (by simp)
    | some j0 =>
      rw [hs] at h1
      simp only [Option.some.injEq] at h1
      simp [← h1]

/-- C9: with `batch_size = 1` and `num_unrollings = 0` on a dataset of at
least 2 records, construction never terminates at any fuel: each probing
`next_batch()` performs zero unroll steps and leaves the cursor unchanged,
so the estimator loop condition `cursor[0] < (size-1) - 0` holds forever. -/
theorem claim_C9 (cols : List String) (keyN targetN : String) (d : DataSet)
    (nI : Nat) (hsz : 2 ≤ d.size) :
    (∀ fuel, construct cols keyN targetN d nI 1 0 fuel = none) ∧
    (∀ cursor, (nextBatch d nI 0 cursor).2 = cursor) := by
  refine ⟨?_, fun cursor => nextBatch_unroll_zero d nI cursor⟩
  intro fuel
  unfold construct
  cases htg : cols.indexOf? targetN with
  | none => rfl
  | some tIdx =>
    dsimp only
    rw [if_pos (Nat.lt_succ_self tIdx)]
    by_cases hk : cols.contains keyN
    case neg => rw [if_neg hk]
    rw [if_pos hk, if_neg (by omega : ¬(1 : Nat) = 0)]
    cases halign : alignAll d fuel 0 ((List.range 1).map fun b => b * (d.size / 1)) with
    | none => rfl
    | some initC =>
      dsimp only
      have hinitC : initC = [0] := by
        have h1 : (List.range 1).map (fun b => b * (d.size / 1)) = [0] := by
          rw [show List.range 1 = [0] from rfl]
          simp
        rw [h1] at halign
        exact alignAll_singleton d fuel 0 initC halign
      subst hinitC
      have hstuck := calcLoop_stuck d nI ((d.size : Int) - 1) (by omega) fuel [0] rfl
      have hcalc : calcNumBatchesState ⟨d, nI, 1, 0, [0], [0], 0⟩ fuel = none := by
        unfold calcNumBatchesState
        dsimp only [rewind]
        rw [show endIndex ⟨d, nI, 1, 0, [0], [0], 0⟩ = (d.size : Int) - 1 from by
          simp [endIndex], hstuck]
      rw [hcalc]

/-- C9 witness: on the example dataset with batch_size 1 and zero
unrollings, construction fails at a concrete fuel and a probing call leaves
a concrete cursor unchanged. -/
theorem claim_C9_witness :
    construct colsEx "ID" "YY" dEx 2 1 0 37 = none ∧ (nextBatch dEx 2 0 [3]).2 = [3] :=
  ⟨(claim_C9 colsEx "ID" "YY" dEx 2 (by decide)).1 37,
   (claim_C9 colsEx "ID" "YY" dEx 2 (by decide)).2 [3]⟩

theorem nextBatch_cursor_length (d : DataSet) (nI U : Nat) (cursor : List Nat) :
    (nextBatch d nI U cursor).2.length = cursor.length := by
  rw [nextBatch_cursor_spec]
  simp

theorem calcLoop_noCond (d : DataSet) (nI U : Nat) (eIdx : Int) (fuel : Nat)
    (cur : List Nat) (hcond : ¬ ((cur.getD 0 0 : Int) < eIdx - (U : Int))) :
    calcLoop d nI U eIdx fuel cur = some (0, cur) := by
  cases fuel <;> (simp only [calcLoop]; rw [if_neg hcond])

theorem calcLoop_det (d : DataSet) (nI U : Nat) (eIdx : Int) :
    ∀ (f1 : Nat) (cur : List Nat) (r1 : Nat × List Nat),
      calcLoop d nI U eIdx f1 cur = some r1 →
      ∀ (f2 : Nat) (r2 : Nat × List Nat), calcLoop d nI U eIdx f2 cur = some r2 →
      r1 = r2 := by
  intro f1
  induction f1 with
  | zero =>
    intro cur r1 h1 f2 r2 h2
    by_cases hcond : (cur.getD 0 0 : Int) < eIdx - (U : Int)
    · simp only [calcLoop, if_pos hcond] at h1
      exact absurd h1 (by simp)
    · rw [calcLoop_noCond d nI U eIdx 0 cur hcond] at h1
      rw [calcLoop_noCond d nI U eIdx f2 cur hcond] at h2
      injection h1 with h1
      injection h2 with h2
      rw [← h1, ← h2]
  | succ f ih =>
    intro cur r1 h1 f2 r2 h2
    by_cases hcond : (cur.getD 0 0 : Int) < eIdx - (U : Int)
    · cases f2 with
      | zero =>
        simp only [calcLoop, if_pos hcond] at h2
        exact absurd h2 (by simp)
      | succ f2 =>
        simp only [calcLoop, if_pos hcond] at h1 h2
        cases e1 : calcLoop d nI U eIdx f (nextBatch d nI U cur).2 with
        | none => rw [e1] at h1; exact absurd h1 (by simp)
        | some q1 =>
          rw [e1] at h1
          cases e2 : calcLoop d nI U eIdx f2 (nextBatch d nI U cur).2 with
          | none => rw [e2] at h2; exact absurd h2 (by simp)
          | some q2 =>
            rw [e2] at h2
            obtain ⟨n1, c1⟩ := q1
            obtain ⟨n2, c2⟩ := q2
            have hq := ih (nextBatch d nI U cur).2 (n1, c1) e1 f2 (n2, c2) e2
            simp only [Prod.mk.injEq] at hq
            simp only [Option.some.injEq] at h1 h2
            rw [← h1, ← h2, hq.1, hq.2]
    · rw [calcLoop_noCond d nI U eIdx (f + 1) cur hcond] at h1
      rw [calcLoop_noCond d nI U eIdx f2 cur hcond] at h2
      injection h1 with h1
      injection h2 with h2
      rw [← h1, ← h2]

theorem calcLoop_term (d : DataSet) (nI U : Nat) (eIdx : Int)
    (hU : 1 ≤ U) (hE : eIdx ≤ (d.size : Int) - 1) :
    ∀ (fuel : Nat) (cur : List Nat), cur ≠ [] → cur.getD 0 0 < d.size →
      eIdx - (U : Int) ≤ (fuel : Int) + (cur.getD 0 0 : Int) →
      ∃ r, calcLoop d nI U eIdx fuel cur = some r := by
  intro fuel
  induction fuel with
  | zero =>
    intro cur _ _ hfuel
    have hcond : ¬ ((cur.getD 0 0 : Int) < eIdx - (U : Int)) := by
      push_cast at hfuel
      omega
    exact ⟨(0, cur), calcLoop_noCond d nI U eIdx 0 cur hcond⟩
  | succ fuel ih =>
    intro cur hne hlt hfuel
    by_cases hcond : (cur.getD 0 0 : Int) < eIdx - (U : Int)
    · have hsz : 0 < d.size := Nat.lt_of_le_of_lt (Nat.zero_le _) hlt
      have hlen : 0 < cur.length := List.length_pos.mpr hne
      obtain ⟨k, hk1, hk2, hkeq⟩ := slotRun_advance d nI U ⟨cur.getD 0 0, U⟩ hsz hU
      have hget : (nextBatch d nI U cur).2.getD 0 0 = (cur.getD 0 0 + k) % d.size := by
        rw [nextBatch_cursor_getD d nI U cur 0 hlen]
        exact hkeq
      have hlt2 : cur.getD 0 0 + k < d.size := by omega
      have hmod : (cur.getD 0 0 + k) % d.size = cur.getD 0 0 + k := Nat.mod_eq_of_lt hlt2
      obtain ⟨r, hr⟩ := ih (nextBatch d nI U cur).2
        (by
          rw [← List.length_pos, nextBatch_cursor_length]
          exact hlen)
        (by rw [hget, hmod]; exact hlt2)
        (by rw [hget, hmod]; push_cast; push_cast at hfuel; omega)
      obtain ⟨n, c⟩ := r
      refine ⟨(n + 1, c), ?_⟩
      simp only [calcLoop, if_pos hcond, hr]
    · exact ⟨(0, cur), calcLoop_noCond d nI U eIdx (fuel + 1) cur hcond⟩

theorem calc_term_state (g : BatchGenerator)
    (hU : 1 ≤ g.num_unrollings) (hsz : 0 < g.ds.size)
    (hlen : 0 < g.init_cursor.length) (h0 : g.init_cursor.getD 0 0 = 0)
    (hE : endIndex g ≤ (g.ds.size : Int) - 1) :
    ∃ n c, calcNumBatchesState g g.ds.size = some (n, g) ∧
      calcLoop g.ds g.num_inputs g.num_unrollings (endIndex g) g.ds.size g.init_cursor
        = some (n, c) ∧
      (0 < endIndex g - (g.num_unrollings : Int) ↔ 0 < n) := by
  obtain ⟨r, hr⟩ := calcLoop_term g.ds g.num_inputs g.num_unrollings (endIndex g) hU hE
    g.ds.size g.init_cursor (List.length_pos.mp hlen) (by rw [h0]; exact hsz)
    (by rw [h0]; push_cast; omega)
  obtain ⟨n, c⟩ := r
  refine ⟨n, c, ?_, hr, ?_⟩
  · unfold calcNumBatchesState
    dsimp only [rewind]
    rw [hr]
  · constructor
    · intro hpos
      have hcond : ((g.init_cursor.getD 0 0 : Nat) : Int)
          < endIndex g - (g.num_unrollings : Int) := by
        rw [h0]
        push_cast
        omega
      obtain ⟨m, hm⟩ : ∃ m, g.ds.size = m + 1 := ⟨g.ds.size - 1, by omega⟩
      rw [hm] at hr
      simp only [calcLoop, if_pos hcond] at hr
      cases e : calcLoop g.ds g.num_inputs g.num_unrollings (endIndex g) m
          (nextBatch g.ds g.num_inputs g.num_unrollings g.init_cursor).2 with
      | none => rw [e] at hr; exact absurd hr (by simp)
      | some q =>
        rw [e] at hr
        obtain ⟨n2, c2⟩ := q
        simp only [Option.some.injEq, Prod.mk.injEq] at hr
        omega
    · intro hn
      by_contra hneg
      have hcond : ¬ ((g.init_cursor.getD 0 0 : Int)
          < endIndex g - (g.num_unrollings : Int)) := by
        rw [h0]
        push_cast
        omega
      rw [calcLoop_noCond _ _ _ _ _ _ hcond] at hr
      simp only [Option.some.injEq, Prod.mk.injEq] at hr
      omega

/-- C1 (amended): for every constructed engine with `num_unrollings ≥ 1`,
the epoch-size probe is finite — rerunning it with fuel equal to the
dataset size succeeds and returns the cached `num_batches` — and the
estimate is strictly positive exactly when the target boundary exceeds
`num_unrollings` (otherwise it is 0, so the original claim of
unconditional strict positivity fails). -/
theorem claim_C1_amended (cols : List String) (keyN targetN : String) (d : DataSet)
    (nI B U fuel : Nat) (g : BatchGenerator)
    (h : construct cols keyN targetN d nI B U fuel = some g) (hU1 : 1 ≤ U) :
    (∃ n, calcNumBatchesState g g.ds.size = some (n, g) ∧ n = g.num_batches) ∧
    (0 < endIndex g - (U : Int) ↔ 0 < g.num_batches) := by
  obtain ⟨hds, hnI, hB, hUeq, _, hBpos, hsz, hlen, h0, hin, cexit, hloop⟩ :=
    construct_props cols keyN targetN d nI B U fuel g h
  have hU : 1 ≤ g.num_unrollings := by rw [hUeq]; exact hU1
  have hsz' : 0 < g.ds.size := by rw [hds]; exact hsz
  have hlen' : 0 < g.init_cursor.length := by rw [hlen]; exact hBpos
  have hE : endIndex g ≤ (g.ds.size : Int) - 1 := by
    unfold endIndex
    split_ifs with h1
    · have hmem : g.init_cursor.getD 1 0 ∈ g.init_cursor := by
        rw [List.getD_eq_getElem _ _ (by rw [hlen, ← hB]; exact h1)]
        exact List.getElem_mem _
      have hx := hin _ hmem
      rw [hds]
      omega
    · omega
  obtain ⟨n, c, hstate, hloop2, hiff⟩ := calc_term_state g hU hsz' hlen' h0 hE
  rw [← hds, ← hnI, ← hUeq] at hloop
  have hdet := calcLoop_det g.ds g.num_inputs g.num_unrollings (endIndex g) fuel
    g.init_cursor (g.num_batches, cexit) hloop g.ds.size (n, c) hloop2
  have hnb : g.num_batches = n := by
    simpa using congrArg Prod.fst hdet
  refine ⟨⟨n, hstate, hnb.symm⟩, ?_⟩
  rw [hUeq] at hiff
  rw [hnb]
  exact hiff

/-- C1 counterexample: the example dataset has two distinct entities and
batch_size 1 ≥ 1, yet with num_unrollings 4 construction succeeds with an
epoch-size estimate of exactly 0 — the estimate is not strictly positive. -/
theorem claim_C1_cex :
    2 ≤ (dEx.recs.map Record.key).dedup.length ∧
    (construct colsEx "ID" "YY" dEx 2 1 4 30).map (fun g => g.num_batches) = some 0 :=
  ⟨by decide, by decide⟩

/-- C1 witness: the amended statement instantiated on the example engine. -/
theorem claim_C1_witness :
    (∃ n, calcNumBatchesState gEx gEx.ds.size = some (n, gEx) ∧ n = gEx.num_batches) ∧
    (0 < endIndex gEx - ((2 : Nat) : Int) ↔ 0 < gEx.num_batches) :=
  claim_C1_amended colsEx "ID" "YY" dEx 2 2 2 30 gEx (by decide) (by decide)

theorem getD_append_right {α : Type} (l1 l2 : List α) (n : Nat) (dflt : α)
    (h : l1.length ≤ n) : (l1 ++ l2).getD n dflt = l2.getD (n - l1.length) dflt := by
  rw [List.getD_eq_getD_get?, List.getD_eq_getD_get?, List.get?_eq_getElem?,
    List.get?_eq_getElem?, List.getElem?_append_right h]

theorem getD_replicate_lt {α : Type} (n i : Nat) (a dflt : α) (h : i < n) :
    (List.replicate n a).getD i dflt = a := by
  rw [List.getD_eq_getElem _ _ (by simpa using h)]
  simp

theorem slotSteps_split (d : DataSet) (nI U : Nat) (a : Nat) :
    ∀ (b step : Nat) (s : SlotState),
      slotSteps d nI U step (a + b) s
        = ⟨(slotSteps d nI U step a s).xs
              ++ (slotSteps d nI U (step + a) b (slotSteps d nI U step a s).s).xs,
           (slotSteps d nI U step a s).ys
              ++ (slotSteps d nI U (step + a) b (slotSteps d nI U step a s).s).ys,
           (slotSteps d nI U step a s).ats
              ++ (slotSteps d nI U (step + a) b (slotSteps d nI U step a s).s).ats,
           (slotSteps d nI U (step + a) b (slotSteps d nI U step a s).s).s⟩ := by
  induction a with
  | zero =>
    intro b step s
    simp [slotSteps]
  | succ a ih =>
    intro b step s
    have h1 : a + 1 + b = (a + b) + 1 := by omega
    rw [h1]
    have h2 : step + (a + 1) = (step + 1) + a := by omega
    simp only [slotSteps, h2]
    rw [ih b (step + 1) (slotStep d nI U step s).s]
    simp [List.cons_append]

theorem slotSteps_pad_steady (d : DataSet) (nI U : Nat) (count : Nat) :
    ∀ (step : Nat) (s : SlotState), 1 ≤ step → isBoundary d s.cur → s.seqLen ≠ U →
      slotSteps d nI U step count s
        = ⟨List.replicate count (List.replicate nI 0), List.replicate count [0, 0],
           List.replicate count none, s⟩ := by
  induction count with
  | zero => intro step s _ _ _; rfl
  | succ count ih =>
    intro step s h1 hb hne
    have ho : slotStep d nI U step s
        = ⟨List.replicate nI 0, [0, 0], none, ⟨s.cur, s.seqLen⟩⟩ := by
      simp only [slotStep, if_pos (⟨h1, hb⟩ : 0 < step ∧ isBoundary d s.cur), if_neg hne]
    simp only [slotSteps, ho]
    rw [ih (step + 1) ⟨s.cur, s.seqLen⟩ (by omega) hb hne]
    simp [List.replicate_succ]

theorem slotSteps_pad_run (d : DataSet) (nI U : Nat) (count step : Nat) (s : SlotState)
    (h1 : 1 ≤ step) (hb : isBoundary d s.cur) (hU : s.seqLen = U) (hne : step ≠ U)
    (hcount : 1 ≤ count) :
    slotSteps d nI U step count s
      = ⟨List.replicate count (List.replicate nI 0), List.replicate count [0, 0],
         List.replicate count none, ⟨s.cur, step⟩⟩ := by
  obtain ⟨m, rfl⟩ : ∃ m, count = m + 1 := ⟨count - 1, by omega⟩
  have ho : slotStep d nI U step s = ⟨List.replicate nI 0, [0, 0], none, ⟨s.cur, step⟩⟩ := by
    simp only [slotStep, if_pos (⟨h1, hb⟩ : 0 < step ∧ isBoundary d s.cur), if_pos hU]
  simp only [slotSteps, ho]
  rw [slotSteps_pad_steady d nI U m (step + 1) ⟨s.cur, step⟩ (by omega) hb hne]
  simp [List.replicate_succ]

theorem slotSteps_normal_run (d : DataSet) (nI U : Nat) (count : Nat) :
    ∀ (step c L : Nat), 0 < d.size → c < d.size →
      (∀ j, j < count → (step + j = 0 ∨ ¬ isBoundary d ((c + j) % d.size))) →
      (slotSteps d nI U step count ⟨c, L⟩).s = ⟨(c + count) % d.size, L⟩ ∧
      (slotSteps d nI U step count ⟨c, L⟩).xs.length = count ∧
      (slotSteps d nI U step count ⟨c, L⟩).ys.length = count ∧
      (slotSteps d nI U step count ⟨c, L⟩).ats.length = count := by
  induction count with
  | zero =>
    intro step c L _ hc _
    refine ⟨?_, rfl, rfl, rfl⟩
    simp [slotSteps, Nat.mod_eq_of_lt hc]
  | succ count ih =>
    intro step c L hsz hc hno
    have h0 := hno 0 (Nat.succ_pos count)
    have hnc : ¬ (0 < step ∧ isBoundary d c) := by
      rcases h0 with h0 | h0
      · intro hco
        rw [Nat.add_zero] at h0
        exact absurd hco.1 (by omega)
      · intro hco
        apply h0
        have hcc : (c + 0) % d.size = c := by rw [Nat.add_zero, Nat.mod_eq_of_lt hc]
        rw [hcc]
        exact hco.2
    have ho : (slotStep d nI U step ⟨c, L⟩).s = ⟨(c + 1) % d.size, L⟩ := by
      simp only [slotStep, if_neg hnc]
    obtain ⟨ihs, ihx, ihy, iha⟩ := ih (step + 1) ((c + 1) % d.size) L hsz
      (Nat.mod_lt _ hsz) (by
        intro j hj
        rcases hno (j + 1) (by omega) with h' | h'
        · left; omega
        · right
          have hrw : ((c + 1) % d.size + j) % d.size = (c + (j + 1)) % d.size := by
            rw [Nat.mod_add_mod]
            congr 1
            omega
          rw [hrw]
          exact h')
    refine ⟨?_, ?_, ?_, ?_⟩
    · show (slotSteps d nI U (step + 1) count (slotStep d nI U step ⟨c, L⟩).s).s = _
      rw [ho, ihs]
      congr 1
      rw [Nat.mod_add_mod]
      congr 1
      omega
    · show ((slotStep d nI U step ⟨c, L⟩).x
          :: (slotSteps d nI U (step + 1) count (slotStep d nI U step ⟨c, L⟩).s).xs).length = _
      rw [List.length_cons, ho, ihx]
    · show ((slotStep d nI U step ⟨c, L⟩).y
          :: (slotSteps d nI U (step + 1) count (slotStep d nI U step ⟨c, L⟩).s).ys).length = _
      rw [List.length_cons, ho, ihy]
    · show ((slotStep d nI U step ⟨c, L⟩).attr
          :: (slotSteps d nI U (step + 1) count (slotStep d nI U step ⟨c, L⟩).s).ats).length = _
      rw [List.length_cons, ho, iha]

/-- C3: if slot `b`'s cursor crosses an entity boundary at local unroll step
`t` with `0 < t < num_unrollings` during one `next_batch()` call (no earlier
boundary in steps 1..t-1), then the returned `seq_lengths[b]` is exactly `t`
(set once, never overwritten), the feature and target rows of that slot at
every step ≥ t are all-zero, the auxiliary attribute of those cells is
absent, and the slot's cursor finishes the batch parked at the boundary
record, not advanced past it. -/
theorem claim_C3 (d : DataSet) (nI U t b : Nat) (cursor : List Nat)
    (hsz : 0 < d.size) (hb : b < cursor.length) (hc : cursor.getD b 0 < d.size)
    (ht0 : 0 < t) (htU : t < U)
    (hcross : isBoundary d ((cursor.getD b 0 + t) % d.size))
    (hpre : ∀ j, 0 < j → j < t → ¬ isBoundary d ((cursor.getD b 0 + j) % d.size)) :
    (nextBatch d nI U cursor).1.seq_lengths.getD b 0 = t ∧
    (∀ j, t ≤ j → j < U →
      ((nextBatch d nI U cursor).1.inputs.getD j []).getD b [] = List.replicate nI 0 ∧
      ((nextBatch d nI U cursor).1.targets.getD j []).getD b [] = [0, 0] ∧
      ((nextBatch d nI U cursor).1.attribs.getD j []).getD b none = none) ∧
    (nextBatch d nI U cursor).2.getD b 0 = (cursor.getD b 0 + t) % d.size := by
  have hcount : t + (U - t) = U := by omega
  have hrun := slotSteps_split d nI U t (U - t) 0 ⟨cursor.getD b 0, U⟩
  rw [hcount] at hrun
  have hnorm := slotSteps_normal_run d nI U t 0 (cursor.getD b 0) U hsz hc (by
    intro j hj
    rcases Nat.eq_zero_or_pos j with rfl | hjpos
    · exact Or.inl rfl
    · exact Or.inr (hpre j hjpos hj))
  rw [hnorm.1] at hrun
  have hpad := slotSteps_pad_run d nI U (U - t) (0 + t)
    ⟨(cursor.getD b 0 + t) % d.size, U⟩ (by omega) hcross rfl (by omega) (by omega)
  rw [hpad] at hrun
  simp only [Nat.zero_add] at hrun
  refine ⟨?_, ?_, ?_⟩
  · rw [nextBatch_seqLens_getD d nI U cursor b hb, hrun]
  · intro j hjt hjU
    obtain ⟨hxc, hyc, hac⟩ := nextBatch_cells d nI U cursor b j hb hjU
    have hjlt : j - t < U - t := by omega
    refine ⟨?_, ?_, ?_⟩
    · rw [hxc, hrun]
      show ((slotSteps d nI U 0 t ⟨cursor.getD b 0, U⟩).xs
          ++ List.replicate (U - t) (List.replicate nI 0)).getD j [] = _
      rw [getD_append_right _ _ j [] (by rw [hnorm.2.1]; exact hjt), hnorm.2.1,
        getD_replicate_lt _ _ _ _ hjlt]
    · rw [hyc, hrun]
      show ((slotSteps d nI U 0 t ⟨cursor.getD b 0, U⟩).ys
          ++ List.replicate (U - t) [0, 0]).getD j [] = _
      rw [getD_append_right _ _ j [] (by rw [hnorm.2.2.1]; exact hjt), hnorm.2.2.1,
        getD_replicate_lt _ _ _ _ hjlt]
    · rw [hac, hrun]
      show ((slotSteps d nI U 0 t ⟨cursor.getD b 0, U⟩).ats
          ++ List.replicate (U - t) none).getD j none = _
      rw [getD_append_right _ _ j none (by rw [hnorm.2.2.2]; exact hjt), hnorm.2.2.2,
        getD_replicate_lt _ _ _ _ hjlt]
  · rw [nextBatch_cursor_getD d nI U cursor b hb, hrun]

/-- C3 witness: on the example dataset, a slot starting at index 2 (last
row of entity A) with three unrollings crosses the boundary at step 1. -/
theorem claim_C3_witness :
    (nextBatch dEx 2 3 [2]).1.seq_lengths.getD 0 0 = 1 ∧
    ((nextBatch dEx 2 3 [2]).1.inputs.getD 2 []).getD 0 [] = List.replicate 2 0 ∧
    ((nextBatch dEx 2 3 [2]).1.targets.getD 2 []).getD 0 [] = [0, 0] ∧
    ((nextBatch dEx 2 3 [2]).1.attribs.getD 2 []).getD 0 none = none ∧
    (nextBatch dEx 2 3 [2]).2.getD 0 0 = (2 + 1) % dEx.size := by
  have h := claim_C3 dEx 2 3 1 0 [2] (by decide) (by decide) (by decide) (by decide)
    (by decide) (by decide)
    (by intro j hj hj1; exact absurd (by omega : (0 : Nat) < 0) (Nat.lt_irrefl 0))
  exact ⟨h.1, (h.2.1 2 (by omega) (by omega)).1, (h.2.1 2 (by omega) (by omega)).2.1,
    (h.2.1 2 (by omega) (by omega)).2.2, h.2.2⟩

end BatchGen
